import Mathlib

/-!
Verification of the tiled-inference pipeline in `app.js` of this repository.

The pipeline (class `ImageProcessor` and class `App`, lines 7-1254 of
`app.js`; the file contains two further near-identical copies of the same
pipeline) is embedded shallowly:

* JavaScript numbers are idealized as the type `JSVal`: a finite value is an
  exact rational, and the special doubles `NaN`, `Infinity` and `-Infinity`
  are separate constructors.  The arithmetic and comparison operators follow
  the IEEE-754 rules for these special values; rounding of finite values is
  not modelled (finite arithmetic is exact).
* `Float32Array` buffers are embedded as total functions `ℕ → JSVal`
  (reads and writes in the code stay within bounds at the fixed
  1024×1024 geometry) or, for the one-dimensional scans, as `List JSVal`.
* The `async` pipeline driver `App.runInference` is embedded as an atomic
  state transformer on `AppState`; the external inference backend is an
  opaque function that may fail (`Option`).
-/

namespace Profilometry

/-- An idealized JavaScript number: an exact rational, or one of the
non-finite doubles. -/
inductive JSVal where
  | num : ℚ → JSVal
  | nan : JSVal
  | inf : JSVal
  | neginf : JSVal
deriving DecidableEq

namespace JSVal

/-- JavaScript's global `isFinite` on a number: true exactly for finite
values. -/
def isFinite : JSVal → Bool
  | num _ => true
  | _ => false

/-- JavaScript subtraction `a - b` on numbers, with the IEEE rules for
`NaN` and the infinities. -/
def jsSub : JSVal → JSVal → JSVal
  | num a, num b => num (a - b)
  | nan, _ => nan
  | _, nan => nan
  | inf, inf => nan
  | inf, neginf => inf
  | inf, num _ => inf
  | neginf, neginf => nan
  | neginf, inf => neginf
  | neginf, num _ => neginf
  | num _, inf => neginf
  | num _, neginf => inf

/-- JavaScript addition `a + b` on numbers. -/
def jsAdd : JSVal → JSVal → JSVal
  | num a, num b => num (a + b)
  | nan, _ => nan
  | _, nan => nan
  | inf, neginf => nan
  | neginf, inf => nan
  | inf, _ => inf
  | _, inf => inf
  | neginf, _ => neginf
  | _, neginf => neginf

/-- JavaScript multiplication `a * b` on numbers. -/
def jsMul : JSVal → JSVal → JSVal
  | num a, num b => num (a * b)
  | nan, _ => nan
  | _, nan => nan
  | inf, inf => inf
  | inf, neginf => neginf
  | neginf, inf => neginf
  | neginf, neginf => inf
  | inf, num b => if b = 0 then nan else if 0 < b then inf else neginf
  | num a, inf => if a = 0 then nan else if 0 < a then inf else neginf
  | neginf, num b => if b = 0 then nan else if 0 < b then neginf else inf
  | num a, neginf => if a = 0 then nan else if 0 < a then neginf else inf

/-- JavaScript division `a / b` on numbers (a zero divisor is treated as
`+0`; the pipeline only ever divides by the non-zero constant
`16498.2578125`). -/
def jsDiv : JSVal → JSVal → JSVal
  | num a, num b =>
      if b = 0 then (if a = 0 then nan else if 0 < a then inf else neginf)
      else num (a / b)
  | nan, _ => nan
  | _, nan => nan
  | inf, num b => if 0 ≤ b then inf else neginf
  | neginf, num b => if 0 ≤ b then neginf else inf
  | num _, inf => num 0
  | num _, neginf => num 0
  | inf, inf => nan
  | inf, neginf => nan
  | neginf, inf => nan
  | neginf, neginf => nan

/-- JavaScript `Math.abs`. -/
def jsAbs : JSVal → JSVal
  | num a => num |a|
  | nan => nan
  | inf => inf
  | neginf => inf

/-- JavaScript comparison `a < b` on numbers (false whenever `NaN` is
involved). -/
def jsLt : JSVal → JSVal → Bool
  | num a, num b => decide (a < b)
  | nan, _ => false
  | _, nan => false
  | inf, _ => false
  | neginf, neginf => false
  | neginf, _ => true
  | num _, inf => true
  | num _, neginf => false

/-- JavaScript comparison `a >= b` on numbers (false whenever `NaN` is
involved). -/
def jsGe : JSVal → JSVal → Bool
  | num a, num b => decide (b ≤ a)
  | nan, _ => false
  | _, nan => false
  | inf, _ => true
  | num _, inf => false
  | neginf, inf => false
  | num _, neginf => true
  | neginf, neginf => true
  | neginf, num _ => false

/-- JavaScript strict equality `a === b` on numbers (`NaN === NaN` is
false). -/
def jsStrictEq : JSVal → JSVal → Bool
  | num a, num b => decide (a = b)
  | inf, inf => true
  | neginf, neginf => true
  | _, _ => false

end JSVal

open JSVal

/-- The fixed affine offset `50481.640625` used by `processCrop` and
`combineOutputs` in `app.js`. -/
def normOffset : ℚ := 50481.640625

/-- The fixed affine scale `16498.2578125` used by `processCrop` and
`combineOutputs` in `app.js`. -/
def normScale : ℚ := 16498.2578125

/-- One step of the scan loop of `ImageProcessor.calculateNormalization`
(`app.js` lines 143-154, one buffer): a finite value updates the running
`min`/`max` via the JavaScript `<` and `>` comparisons, a non-finite value
is skipped. -/
def calcNormStep (mm : JSVal × JSVal) (v : JSVal) : JSVal × JSVal :=
  if v.isFinite then
    (if jsLt v mm.1 then v else mm.1, if jsLt mm.2 v then v else mm.2)
  else mm

/-- The scan loop of `ImageProcessor.calculateNormalization` for one buffer,
started at the sentinels `(Infinity, -Infinity)` (`app.js` lines 138-154). -/
def calcMinMax (data : List JSVal) : JSVal × JSVal :=
  data.foldl calcNormStep (JSVal.inf, JSVal.neginf)

/-- `ImageProcessor.calculateNormalization` (`app.js` lines 137-158) for one
of the two buffers: scan from the sentinels, then widen `max` to `min + 1`
when `max === min` (line 156).  The source runs this logic for the
intensity and the surface buffer in a single loop; the per-buffer
computation is identical. -/
def calculateNormalization (data : List JSVal) : JSVal × JSVal :=
  if jsStrictEq (calcMinMax data).2 (calcMinMax data).1 then
    ((calcMinMax data).1, jsAdd (calcMinMax data).1 (JSVal.num 1))
  else calcMinMax data

/-- The flat scan index `(gridY*256 + y) * 1024 + gridX*256 + x` that
`processCrop` reads and `combineOutputs` writes for tile position `(x, y)`
of grid cell `(gridX, gridY)`. -/
def fullIdx (gX gY x y : ℕ) : ℕ := (gY * 256 + y) * 1024 + gX * 256 + x

/-- `ImageProcessor.processCrop` (`app.js` lines 204-217): the 65536-element
tile at grid cell `(gX, gY)`; entry `t = y*256 + x` holds
`(intensity[(gY*256+y)*1024 + gX*256+x] - 50481.640625) / 16498.2578125`. -/
def processCrop (intensity : ℕ → JSVal) (gX gY : ℕ) : ℕ → JSVal :=
  fun t =>
    jsDiv (jsSub (intensity (fullIdx gX gY (t % 256) (t / 256)))
        (JSVal.num normOffset))
      (JSVal.num normScale)

/-- The tile of `processCrop` as the length-65536 list that
`App.runInference` pushes into `outputs` (`app.js` line 1148). -/
def cropList (intensity : ℕ → JSVal) (gX gY : ℕ) : List JSVal :=
  (List.range 65536).map (processCrop intensity gX gY)

/-- The inverse affine write `(v * 16498.2578125) + 50481.640625` of
`combineOutputs` (`app.js` line 236). -/
def denorm (v : JSVal) : JSVal :=
  jsAdd (jsMul v (JSVal.num normScale)) (JSVal.num normOffset)

/-- The inner double loop of `combineOutputs` (`app.js` lines 232-239) for
one grid cell `(gX, gY)` with `gX, gY < 4`: position `i` of the
reconstruction receives `denorm (out[y*256+x])` when `i` lies inside the
cell's 256×256 block and inside the 1024×1024 image (the code's bounds
guard), and is untouched otherwise.  The imperative loop writes each target
index `fullIdx gX gY x y` exactly once, so it is embedded as this
pointwise function update. -/
def writeTile (buf : ℕ → JSVal) (gX gY : ℕ) (out : List JSVal) : ℕ → JSVal :=
  fun i =>
    if i % 1024 / 256 = gX ∧ i / 1024 / 256 = gY ∧ i < 1048576 then
      denorm (out.getD (i / 1024 % 256 * 256 + i % 1024 % 256) JSVal.nan)
    else buf i

/-- The grid loop of `combineOutputs` (`app.js` lines 224-241), processing
cells `k, k+1, ..., k+rem-1` in row-major order (`gridY = k / 4`,
`gridX = k % 4`): each output must have 65536 elements, otherwise the loop
aborts with `false`, leaving the buffer as written so far. -/
def combineFrom (outputs : List (List JSVal)) (k rem : ℕ) (buf : ℕ → JSVal) :
    (ℕ → JSVal) × Bool :=
  match rem with
  | 0 => (buf, true)
  | rem' + 1 =>
    if (outputs.getD k []).length = 65536 then
      combineFrom outputs (k + 1) rem'
        (writeTile buf (k % 4) (k / 4) (outputs.getD k []))
    else (buf, false)

/-- `ImageProcessor.combineOutputs` (`app.js` lines 219-243) as a transformer
of the `lastReconstructed` field: a wrong output count returns `false`
without touching the field; otherwise the field is first replaced by a
fresh zero buffer of the fixed 1024×1024 geometry (line 222) and the grid
loop runs. -/
def combineOutputs (prev : Option (ℕ → JSVal)) (outputs : List (List JSVal)) :
    Option (ℕ → JSVal) × Bool :=
  if outputs.length = 16 then
    let r := combineFrom outputs 0 16 (fun _ => JSVal.num 0)
    (some r.1, r.2)
  else (prev, false)

/-- One entry of `App.createDifferenceData` (`app.js` lines 1180-1186):
`Math.abs(a - b)` when both inputs are finite, else `0`. -/
def diffVal (x y : JSVal) : JSVal :=
  if x.isFinite && y.isFinite then jsAbs (jsSub x y) else JSVal.num 0

/-- `App.createDifferenceData` (`app.js` lines 1171-1187) on two buffers of
the same (fixed) geometry, pointwise. -/
def createDifferenceData (a b : ℕ → JSVal) : ℕ → JSVal :=
  fun i => diffVal (a i) (b i)

/-- The filter predicate of `App.updateHighlighting` (`app.js` line 1192):
`d => isFinite(d) && d > 0`.  A value passes exactly when it is a finite
strictly-positive number, and the kept values are returned as their
rationals so that the subsequent numeric sort can be stated on `ℚ`. -/
def posOf : JSVal → Option ℚ
  | JSVal.num q => if 0 < q then some q else none
  | _ => none

/-- The filtered difference values `validDiffs` of `App.updateHighlighting`
(`app.js` line 1192). -/
def validDiffs (diffs : List JSVal) : List ℚ := diffs.filterMap posOf

/-- The clamped nearest-rank index
`Math.min(Math.floor(p/100 * n), n - 1)` of `App.updateHighlighting`
(`app.js` lines 1196-1197). -/
def thresholdIndex (p : ℚ) (n : ℕ) : ℕ :=
  min (Int.toNat ⌊p / 100 * (n : ℚ)⌋) (n - 1)

/-- The ascending numeric sort `validDiffs.sort((a, b) => a - b)` of
`App.updateHighlighting` (`app.js` line 1195). -/
def sortAsc (l : List ℚ) : List ℚ := List.insertionSort (· ≤ ·) l

/-- The percentile threshold of `App.updateHighlighting` (`app.js` lines
1192-1197): filter to strictly-positive finite values, short-circuit when
none remain (line 1193), sort ascending with the numeric comparator
`(a, b) => a - b` (line 1195), and take the clamped nearest-rank element. -/
def thresholdOf (diffs : List JSVal) (p : ℚ) : Option ℚ :=
  if (sortAsc (validDiffs diffs)).length = 0 then none
  else some ((sortAsc (validDiffs diffs)).getD
    (thresholdIndex p (sortAsc (validDiffs diffs)).length) 0)

/-- The per-pixel highlight classification of `App.updateIntensityOverlay`
(`app.js` line 1234): pixel `i` is anomalous iff `differenceData[i]` is
finite and `differenceData[i] >= threshold` (inclusive comparison). -/
def anomalousAt (diffs : List JSVal) (t : ℚ) (i : ℕ) : Bool :=
  (diffs.getD i JSVal.nan).isFinite && jsGe (diffs.getD i JSVal.nan) (JSVal.num t)

/-- The finite entries of a buffer, in order, as rationals. -/
def toFinite : JSVal → Option ℚ
  | JSVal.num q => some q
  | _ => none

/-- The list of finite entries of a buffer, in order. -/
def finiteVals (data : List JSVal) : List ℚ := data.filterMap toFinite

/-- The session state of class `App` that `runInference` touches: the
re-entrancy flag `isRunning`, the `model` and `imageLoaded` guards, the
loaded scan's intensity buffer, and the session-owned
`lastReconstructed` / `differenceData` buffers. -/
structure AppState where
  isRunning : Bool
  modelLoaded : Bool
  imageLoaded : Bool
  rawIntensityData : ℕ → JSVal
  lastReconstructed : Option (ℕ → JSVal)
  differenceData : Option (ℕ → JSVal)

/-- The collection loop of `App.runInference` (`app.js` lines 1141-1152):
for `gridY, gridX` in row-major order, extract the tile and call the
backend; a backend failure (a thrown error) abandons the loop. -/
def collectOutputs (infer : List JSVal → Option (List JSVal))
    (intensity : ℕ → JSVal) : Option (List (List JSVal)) :=
  (List.range 16).mapM (fun k => infer (cropList intensity (k % 4) (k / 4)))

/-- `App.runInference` (`app.js` lines 1131-1169) as an atomic state
transformer: the guard `if (this.isRunning || !this.model ||
!this.imageLoaded) return;` makes the call a no-op; otherwise the 16 tiles
are collected in order, combined, and on success the difference buffer is
recomputed; the `finally` block clears `isRunning` on every path. -/
def runInference (infer : List JSVal → Option (List JSVal))
    (s : AppState) : AppState :=
  if s.isRunning || !s.modelLoaded || !s.imageLoaded then s
  else
    match collectOutputs infer s.rawIntensityData with
    | none => { s with isRunning := false }
    | some outs =>
      let r := combineOutputs s.lastReconstructed outs
      if r.2 then
        { s with
          isRunning := false
          lastReconstructed := r.1
          differenceData := some (createDifferenceData s.rawIntensityData
            (r.1.getD (fun _ => JSVal.num 0))) }
      else
        { s with isRunning := false, lastReconstructed := r.1 }

/-- The list of the 16 tiles of a scan in the row-major `(gridY, gridX)`
order in which `App.runInference` collects them: entry `k` is the tile of
grid cell `(k % 4, k / 4)`.  This is what an identity inference backend
hands to `combineOutputs`. -/
def extractAll (intensity : ℕ → JSVal) : List (List JSVal) :=
  (List.range 16).map (fun k => cropList intensity (k % 4) (k / 4))

/-- The row-major cell number `gridY * 4 + gridX` of the grid cell
containing flat index `i`. -/
def tileOf (i : ℕ) : ℕ := i / 1024 / 256 * 4 + i % 1024 / 256

/-- The tile-local position `y * 256 + x` of flat index `i` inside its grid
cell. -/
def tilePos (i : ℕ) : ℕ := i / 1024 % 256 * 256 + i % 1024 % 256

/-- `Modelled from the spec (§4.2):` the per-element contract of the
CropExtractor, used as the specification side of the refinement claims:
a finite value is affinely transformed, and a non-finite value propagates
(it is not replaced by zero or clipped). -/
def affineNormSpec : JSVal → JSVal
  | JSVal.num q => JSVal.num ((q - normOffset) / normScale)
  | JSVal.nan => JSVal.nan
  | JSVal.inf => JSVal.inf
  | JSVal.neginf => JSVal.neginf

/-! ## Helper lemmas -/

lemma normScale_pos : (0 : ℚ) < normScale := by norm_num [normScale]

/-- The extraction transform `(v - 50481.640625) / 16498.2578125` of
`processCrop` agrees with the spec-side `affineNormSpec` on every value,
finite or not. -/
lemma affine_norm_eq (v : JSVal) :
    jsDiv (jsSub v (JSVal.num normOffset)) (JSVal.num normScale) =
      affineNormSpec v := by
  have hs := normScale_pos
  cases v with
  | num q => simp [jsSub, jsDiv, affineNormSpec, hs.ne']
  | nan => rfl
  | inf => simp [jsSub, jsDiv, affineNormSpec, hs.le]
  | neginf => simp [jsSub, jsDiv, affineNormSpec, hs.le]

/-- The reassembly transform `(v * 16498.2578125) + 50481.640625` inverts
the extraction transform exactly, on every value. -/
lemma denorm_affineNormSpec (v : JSVal) : denorm (affineNormSpec v) = v := by
  have hs := normScale_pos
  cases v with
  | num q =>
    simp only [denorm, affineNormSpec, jsMul, jsAdd, JSVal.num.injEq]
    rw [div_mul_cancel₀ _ hs.ne']
    ring
  | nan => rfl
  | inf => simp [denorm, affineNormSpec, jsMul, jsAdd, hs, hs.ne']
  | neginf => simp [denorm, affineNormSpec, jsMul, jsAdd, hs, hs.ne']

lemma getD_range_map {α : Type} (f : ℕ → α) (n j : ℕ) (d : α) (h : j < n) :
    ((List.range n).map f).getD j d = f j := by
  have hl : j < ((List.range n).map f).length := by simpa using h
  rw [List.getD_eq_getElem _ _ hl, List.getElem_map]
  simp

lemma length_cropList (intensity : ℕ → JSVal) (gX gY : ℕ) :
    (cropList intensity gX gY).length = 65536 := by simp [cropList]

lemma getD_cropList (intensity : ℕ → JSVal) (gX gY t : ℕ) (h : t < 65536) :
    (cropList intensity gX gY).getD t JSVal.nan =
      processCrop intensity gX gY t :=
  getD_range_map _ 65536 t JSVal.nan h

lemma length_extractAll (intensity : ℕ → JSVal) :
    (extractAll intensity).length = 16 := by simp [extractAll]

lemma getD_extractAll (intensity : ℕ → JSVal) (j : ℕ) (h : j < 16) :
    (extractAll intensity).getD j [] = cropList intensity (j % 4) (j / 4) :=
  getD_range_map _ 16 j [] h

lemma combineFrom_zero (outputs : List (List JSVal)) (k : ℕ) (buf : ℕ → JSVal) :
    combineFrom outputs k 0 buf = (buf, true) := rfl

lemma combineFrom_succ (outputs : List (List JSVal)) (k n : ℕ)
    (buf : ℕ → JSVal) :
    combineFrom outputs k (n + 1) buf =
      if (outputs.getD k []).length = 65536 then
        combineFrom outputs (k + 1) n
          (writeTile buf (k % 4) (k / 4) (outputs.getD k []))
      else (buf, false) := rfl

/-- The grid loop returns `false` as soon as some remaining output has the
wrong length. -/
lemma combineFrom_bad (outputs : List (List JSVal)) :
    ∀ (rem k : ℕ) (buf : ℕ → JSVal),
      (∃ j, k ≤ j ∧ j < k + rem ∧ (outputs.getD j []).length ≠ 65536) →
      (combineFrom outputs k rem buf).2 = false := by
  intro rem
  induction rem with
  | zero =>
    rintro k buf ⟨j, h1, h2, -⟩
    omega
  | succ n ih =>
    rintro k buf ⟨j, h1, h2, h3⟩
    rw [combineFrom_succ]
    by_cases hk : (outputs.getD k []).length = 65536
    · rw [if_pos hk]
      have hjk : j ≠ k := fun e => h3 (e ▸ hk)
      exact ih (k + 1) _ ⟨j, by omega, by omega, h3⟩
    · rw [if_neg hk]

/-- `combineOutputs` on a 16-output list: the field is replaced by the
result of the grid loop on a fresh zero buffer. -/
lemma combineOutputs_eq_of_length (prev : Option (ℕ → JSVal))
    (outputs : List (List JSVal)) (h : outputs.length = 16) :
    combineOutputs prev outputs =
      (some (combineFrom outputs 0 16 (fun _ => JSVal.num 0)).1,
        (combineFrom outputs 0 16 (fun _ => JSVal.num 0)).2) := by
  unfold combineOutputs
  rw [if_pos h]

/-- Success flag of `combineOutputs` on a 16-output list. -/
lemma combineOutputs_snd_of_length (prev : Option (ℕ → JSVal))
    (outputs : List (List JSVal)) (h : outputs.length = 16) :
    (combineOutputs prev outputs).2 =
      (combineFrom outputs 0 16 (fun _ => JSVal.num 0)).2 := by
  rw [combineOutputs_eq_of_length prev outputs h]

/-- Buffer field of `combineOutputs` on a 16-output list. -/
lemma combineOutputs_fst_of_length (prev : Option (ℕ → JSVal))
    (outputs : List (List JSVal)) (h : outputs.length = 16) :
    (combineOutputs prev outputs).1 =
      some (combineFrom outputs 0 16 (fun _ => JSVal.num 0)).1 := by
  rw [combineOutputs_eq_of_length prev outputs h]

/-- The grid loop with 16 well-shaped outputs succeeds, and the resulting
buffer holds the denormalized output value of the unique covering grid cell
at every in-range index. -/
lemma combineFrom_good (outputs : List (List JSVal)) :
    ∀ (rem k : ℕ) (buf : ℕ → JSVal),
      (∀ j, k ≤ j → j < k + rem → (outputs.getD j []).length = 65536) →
      (combineFrom outputs k rem buf).2 = true ∧
      ∀ i, (combineFrom outputs k rem buf).1 i =
        if k ≤ tileOf i ∧ tileOf i < k + rem ∧ i < 1048576 then
          denorm ((outputs.getD (tileOf i) []).getD (tilePos i) JSVal.nan)
        else buf i := by
  intro rem
  induction rem with
  | zero =>
    intro k buf _
    refine ⟨rfl, fun i => ?_⟩
    rw [if_neg (by omega : ¬(k ≤ tileOf i ∧ tileOf i < k + 0 ∧ i < 1048576))]
    rfl
  | succ n ih =>
    intro k buf h
    have hk : (outputs.getD k []).length = 65536 := h k le_rfl (by omega)
    have hrec := ih (k + 1) (writeTile buf (k % 4) (k / 4) (outputs.getD k []))
      (fun j hj1 hj2 => h j (by omega) (by omega))
    rw [combineFrom_succ, if_pos hk]
    refine ⟨hrec.1, fun i => ?_⟩
    rw [hrec.2 i]
    by_cases hc : k + 1 ≤ tileOf i ∧ tileOf i < k + 1 + n ∧ i < 1048576
    · rw [if_pos hc, if_pos ⟨by omega, by omega, hc.2.2⟩]
    · rw [if_neg hc]
      unfold writeTile
      by_cases hw : i % 1024 / 256 = k % 4 ∧ i / 1024 / 256 = k / 4 ∧
          i < 1048576
      · have htk : tileOf i = k := by unfold tileOf; omega
        rw [if_pos hw, if_pos ⟨by omega, by omega, hw.2.2⟩, htk]
        rfl
      · have hcond : ¬(k ≤ tileOf i ∧ tileOf i < k + (n + 1) ∧ i < 1048576) := by
          rintro ⟨h1, h2, h3⟩
          rcases Nat.lt_or_ge (tileOf i) (k + 1) with hlt | hge
          · have htk : tileOf i = k := by omega
            unfold tileOf at htk
            exact hw ⟨by omega, by omega, h3⟩
          · exact hc ⟨hge, by omega, h3⟩
        rw [if_neg hw, if_neg hcond]

lemma foldl_min_le (q : ℚ) (t : List ℚ) : t.foldl min q ≤ q := by
  induction t generalizing q with
  | nil => exact le_refl q
  | cons a t ih => exact le_trans (ih (min q a)) (min_le_left q a)

lemma le_foldl_max (q : ℚ) (t : List ℚ) : q ≤ t.foldl max q := by
  induction t generalizing q with
  | nil => exact le_refl q
  | cons a t ih => exact le_trans (le_max_left q a) (ih (max q a))

/-- Once the scan has seen a finite value, both accumulators are finite and
track the running minimum and maximum of the finite entries. -/
lemma foldl_calcNormStep_num (data : List JSVal) :
    ∀ a b : ℚ,
      data.foldl calcNormStep (JSVal.num a, JSVal.num b) =
        (JSVal.num ((finiteVals data).foldl min a),
         JSVal.num ((finiteVals data).foldl max b)) := by
  induction data with
  | nil => intro a b; rfl
  | cons v t ih =>
    intro a b
    cases v with
    | num q =>
      have h1 : (if q < a then q else a) = min a q := by
        by_cases h : q < a
        · rw [if_pos h, min_eq_right h.le]
        · rw [if_neg h, min_eq_left (not_lt.1 h)]
      have h2 : (if b < q then q else b) = max b q := by
        by_cases h : b < q
        · rw [if_pos h, max_eq_right h.le]
        · rw [if_neg h, max_eq_left (not_lt.1 h)]
      have hstep : calcNormStep (JSVal.num a, JSVal.num b) (JSVal.num q) =
          (JSVal.num (min a q), JSVal.num (max b q)) := by
        simp only [calcNormStep, JSVal.isFinite, if_true, jsLt,
          decide_eq_true_eq]
        rw [← apply_ite JSVal.num, ← apply_ite JSVal.num, h1, h2]
      rw [List.foldl_cons, hstep, ih]
      simp [finiteVals, toFinite]
    | nan => rw [List.foldl_cons]; exact ih a b
    | inf => rw [List.foldl_cons]; exact ih a b
    | neginf => rw [List.foldl_cons]; exact ih a b

/-- The scan of `calculateNormalization` keeps the sentinels exactly when
the buffer has no finite entry, and otherwise computes the finite
minimum/maximum. -/
lemma calcMinMax_eq (data : List JSVal) :
    calcMinMax data =
      match finiteVals data with
      | [] => (JSVal.inf, JSVal.neginf)
      | q :: t => (JSVal.num (t.foldl min q), JSVal.num (t.foldl max q)) := by
  induction data with
  | nil => rfl
  | cons v t ih =>
    cases v with
    | num q =>
      have hstep : calcNormStep (JSVal.inf, JSVal.neginf) (JSVal.num q) =
          (JSVal.num q, JSVal.num q) := rfl
      unfold calcMinMax
      rw [List.foldl_cons, hstep, foldl_calcNormStep_num]
      simp [finiteVals, toFinite]
    | nan =>
      unfold calcMinMax at ih ⊢
      rw [List.foldl_cons]
      exact ih
    | inf =>
      unfold calcMinMax at ih ⊢
      rw [List.foldl_cons]
      exact ih
    | neginf =>
      unfold calcMinMax at ih ⊢
      rw [List.foldl_cons]
      exact ih

/-- The filter of `updateHighlighting` keeps exactly the strictly-positive
finite values of the difference buffer. -/
lemma mem_validDiffs (diffs : List JSVal) (q : ℚ) :
    q ∈ validDiffs diffs ↔ (JSVal.num q ∈ diffs ∧ 0 < q) := by
  unfold validDiffs
  rw [List.mem_filterMap]
  constructor
  · rintro ⟨v, hv, hpos⟩
    cases v with
    | num a =>
      by_cases h0 : 0 < a
      · simp only [posOf, if_pos h0, Option.some.injEq] at hpos
        exact ⟨hpos ▸ hv, hpos ▸ h0⟩
      · simp [posOf, h0] at hpos
    | nan => simp [posOf] at hpos
    | inf => simp [posOf] at hpos
    | neginf => simp [posOf] at hpos
  · rintro ⟨hin, h0⟩
    exact ⟨JSVal.num q, hin, by simp [posOf, h0]⟩

lemma sortAsc_perm (l : List ℚ) : (sortAsc l).Perm l :=
  List.perm_insertionSort _ l

lemma sortAsc_sorted (l : List ℚ) : (sortAsc l).Sorted (· ≤ ·) :=
  List.sorted_insertionSort _ l

/-- On a sorted list, `getD` with default `0` is monotone in the index, for
in-range indices. -/
lemma sorted_getD_mono {s : List ℚ} (hs : s.Sorted (· ≤ ·)) {i j : ℕ}
    (hij : i ≤ j) (hj : j < s.length) :
    s.getD i 0 ≤ s.getD j 0 := by
  have hi : i < s.length := lt_of_le_of_lt hij hj
  rw [List.getD_eq_getElem _ _ hi, List.getD_eq_getElem _ _ hj]
  have := hs.rel_get_of_le (a := ⟨i, hi⟩) (b := ⟨j, hj⟩) hij
  simpa [List.get_eq_getElem] using this

/-! ## Claim theorems -/

set_option maxRecDepth 10000 in
/-- C1 (counterexample): `combineOutputs` given 16 outputs of which the
first is empty returns `false`, but the previously-held reconstruction
buffer (all ones) has been replaced: the field now holds the freshly
allocated all-zero buffer, so its contents changed. -/
theorem combineOutputs_clobbers_prev :
    (combineOutputs (some (fun _ => JSVal.num 1)) (List.replicate 16 [])).2 =
      false ∧
    (combineOutputs (some (fun _ => JSVal.num 1)) (List.replicate 16 [])).1 ≠
      some (fun _ => JSVal.num 1) := by
  have hev : combineOutputs (some (fun _ => JSVal.num 1))
      (List.replicate 16 []) = (some (fun _ => JSVal.num 0), false) := rfl
  rw [hev]
  refine ⟨rfl, fun h => ?_⟩
  have h2 : (fun _ => JSVal.num 0 : ℕ → JSVal) = fun _ => JSVal.num 1 := by
    simpa using h
  have h3 := congrFun h2 0
  simp only [JSVal.num.injEq] at h3
  norm_num at h3

/-- C1 (amended): every shape violation makes `combineOutputs` return
`false`; when the output count itself is wrong the previously-held
reconstruction is untouched, but a wrong per-output length is detected
only after the field has been replaced by a fresh buffer. -/
theorem combineOutputs_shape_reject (prev : Option (ℕ → JSVal))
    (outputs : List (List JSVal)) :
    (outputs.length ≠ 16 → combineOutputs prev outputs = (prev, false)) ∧
    (outputs.length = 16 → (∃ o ∈ outputs, o.length ≠ 65536) →
      (combineOutputs prev outputs).2 = false) := by
  constructor
  · intro h
    unfold combineOutputs
    rw [if_neg h]
  · rintro h16 ⟨o, ho, hlen⟩
    obtain ⟨j, hj, hjo⟩ := List.mem_iff_getElem.mp ho
    have hget : outputs.getD j [] = outputs[j] := List.getD_eq_getElem _ _ hj
    have hbad : (combineFrom outputs 0 16 (fun _ => JSVal.num 0)).2 = false :=
      combineFrom_bad outputs 16 0 _
        ⟨j, Nat.zero_le _, by omega, by rw [hget, hjo]; exact hlen⟩
    unfold combineOutputs
    rw [if_pos h16]
    exact hbad

/-- C1 (witness for the amended claim): a 15-output call leaves the
previous field untouched, and a 16-output call with one empty output
returns `false`. -/
theorem combineOutputs_shape_reject_witness :
    combineOutputs none [] = (none, false) ∧
    (combineOutputs none (List.replicate 16 [])).2 = false := by
  constructor
  · exact (combineOutputs_shape_reject none []).1 (by simp)
  · exact (combineOutputs_shape_reject none (List.replicate 16 [])).2
      (by simp) ⟨[], by simp, by norm_num⟩

set_option maxRecDepth 10000 in
/-- C2: with the identity inference backend the 16 tiles of `processCrop`,
collected in row-major `(gridY, gridX)` order, reassemble under
`combineOutputs` into exactly the original intensity buffer at every
in-range index (the affine extraction and reassembly transforms cancel
exactly in this idealized-arithmetic model, for finite and non-finite
values alike), and the call succeeds. -/
theorem identity_backend_roundtrip (prev : Option (ℕ → JSVal))
    (intensity : ℕ → JSVal) (i : ℕ) (h : i < 1048576) :
    (combineOutputs prev (extractAll intensity)).2 = true ∧
    ((combineOutputs prev (extractAll intensity)).1.getD
      (fun _ => JSVal.nan)) i = intensity i := by
  have hgood : ∀ j, 0 ≤ j → j < 0 + 16 →
      ((extractAll intensity).getD j []).length = 65536 := by
    intro j _ hj
    rw [getD_extractAll _ j (by omega)]
    exact length_cropList _ _ _
  have hcf := combineFrom_good (extractAll intensity) 16 0
    (fun _ => JSVal.num 0) hgood
  rw [combineOutputs_snd_of_length prev _ (length_extractAll intensity),
    combineOutputs_fst_of_length prev _ (length_extractAll intensity)]
  refine ⟨hcf.1, ?_⟩
  rw [Option.getD_some, hcf.2 i]
  have htlt : tileOf i < 16 := by unfold tileOf; omega
  rw [if_pos ⟨Nat.zero_le _, by omega, h⟩, getD_extractAll _ _ htlt]
  have hpos : tilePos i < 65536 := by unfold tilePos; omega
  rw [getD_cropList _ _ _ _ hpos]
  unfold processCrop
  have hfull : fullIdx (tileOf i % 4) (tileOf i / 4) (tilePos i % 256)
      (tilePos i / 256) = i := by
    unfold fullIdx tileOf tilePos
    omega
  rw [hfull, affine_norm_eq, denorm_affineNormSpec]

/-- C2 (witness): the round trip at index 0 of the constant-7 scan. -/
theorem identity_backend_roundtrip_witness :
    (combineOutputs none (extractAll (fun _ => JSVal.num 7))).2 = true ∧
    ((combineOutputs none (extractAll (fun _ => JSVal.num 7))).1.getD
      (fun _ => JSVal.nan)) 0 = JSVal.num 7 :=
  identity_backend_roundtrip none (fun _ => JSVal.num 7) 0 (by norm_num)

/-- C3: for grid coordinates in `{0,1,2,3}` the tile of `processCrop` has
65536 entries, and entry `y*256 + x` is the affine image of
`intensity[(gY*256+y)*1024 + gX*256+x]`: a finite value becomes
`(v - 50481.640625) / 16498.2578125`, and a non-finite value propagates
through the transform unreplaced (per `affineNormSpec`). -/
theorem processCrop_entries (intensity : ℕ → JSVal) (gX gY x y : ℕ)
    (hgx : gX < 4) (hgy : gY < 4) (hx : x < 256) (hy : y < 256) :
    (cropList intensity gX gY).length = 65536 ∧
    processCrop intensity gX gY (y * 256 + x) =
      affineNormSpec (intensity ((gY * 256 + y) * 1024 + gX * 256 + x)) := by
  refine ⟨length_cropList _ _ _, ?_⟩
  have h1 : (y * 256 + x) % 256 = x := by omega
  have h2 : (y * 256 + x) / 256 = y := by omega
  unfold processCrop
  rw [h1, h2]
  unfold fullIdx
  rw [affine_norm_eq]

/-- C3 (witness): the tile entry at `(0,0)` of cell `(0,0)` of an all-`NaN`
scan is the propagated `NaN`. -/
theorem processCrop_entries_witness :
    (cropList (fun _ => JSVal.nan) 0 0).length = 65536 ∧
    processCrop (fun _ => JSVal.nan) 0 0 (0 * 256 + 0) =
      affineNormSpec JSVal.nan :=
  processCrop_entries (fun _ => JSVal.nan) 0 0 0 0 (by norm_num) (by norm_num)
    (by norm_num) (by norm_num)

/-- C7: each entry of the difference buffer is `|a[i] - b[i]|` when both
inputs are finite and `0` otherwise, and every entry is a finite
non-negative number. -/
theorem difference_pointwise (a b : ℕ → JSVal) (i : ℕ) :
    (∀ qa qb, a i = JSVal.num qa → b i = JSVal.num qb →
      createDifferenceData a b i = JSVal.num |qa - qb|) ∧
    ((a i).isFinite = false ∨ (b i).isFinite = false →
      createDifferenceData a b i = JSVal.num 0) ∧
    ∃ q, createDifferenceData a b i = JSVal.num q ∧ 0 ≤ q := by
  unfold createDifferenceData diffVal
  cases ha : a i <;> cases hb : b i <;>
    simp [JSVal.isFinite, jsAbs, jsSub, abs_nonneg]

/-- C7 (witness): `|3 - 5| = 2` at index 0 of two constant buffers. -/
theorem difference_pointwise_witness :
    createDifferenceData (fun _ => JSVal.num 3) (fun _ => JSVal.num 5) 0 =
      JSVal.num |(3 : ℚ) - 5| :=
  (difference_pointwise (fun _ => JSVal.num 3) (fun _ => JSVal.num 5) 0).1
    3 5 rfl rfl

/-- C8: `runInference` called while a run is in flight, or with no model or
no scan loaded, is a no-op: the state (including `isRunning`, the loaded
scan, and the previous reconstruction and difference buffers) is returned
unchanged, and no exception is possible since the guard returns before any
work. -/
theorem runInference_invalidstate_noop
    (infer : List JSVal → Option (List JSVal)) (s : AppState)
    (h : s.isRunning = true ∨ s.modelLoaded = false ∨ s.imageLoaded = false) :
    runInference infer s = s := by
  rcases h with h | h | h <;> simp [runInference, h]

/-- C8 (witness): the guard fires on a state with `isRunning = true`. -/
theorem runInference_invalidstate_noop_witness :
    runInference (fun _ => none)
      { isRunning := true, modelLoaded := true, imageLoaded := true
        rawIntensityData := fun _ => JSVal.num 0
        lastReconstructed := none, differenceData := none } =
      { isRunning := true, modelLoaded := true, imageLoaded := true
        rawIntensityData := fun _ => JSVal.num 0
        lastReconstructed := none, differenceData := none } :=
  runInference_invalidstate_noop _ _ (Or.inl rfl)

/-- C9: the 16 grid cells exactly partition the 1,048,576 flat indices of a
1024×1024 scan: every in-range index is `fullIdx gX gY x y` — the address
read by `processCrop` and written by `combineOutputs` — for exactly one
grid cell and tile position. -/
theorem grid_exact_partition (i : ℕ) (h : i < 1048576) :
    ∃! q : Fin 4 × Fin 4 × Fin 256 × Fin 256,
      fullIdx q.1.val q.2.1.val q.2.2.1.val q.2.2.2.val = i := by
  refine ⟨⟨⟨i % 1024 / 256, by omega⟩, ⟨i / 1024 / 256, by omega⟩,
    ⟨i % 256, by omega⟩, ⟨i / 1024 % 256, by omega⟩⟩, ?_, ?_⟩
  · dsimp only
    unfold fullIdx
    omega
  · rintro ⟨⟨a, ha⟩, ⟨b, hb⟩, ⟨c, hc⟩, ⟨d, hd⟩⟩ hq
    dsimp only at hq
    unfold fullIdx at hq
    simp only [Prod.mk.injEq, Fin.mk.injEq]
    refine ⟨?_, ?_, ?_, ?_⟩ <;> omega

/-- C9 (witness): index 0 is covered by exactly one cell/position. -/
theorem grid_exact_partition_witness :
    ∃! q : Fin 4 × Fin 4 × Fin 256 × Fin 256,
      fullIdx q.1.val q.2.1.val q.2.2.1.val q.2.2.2.val = 0 :=
  grid_exact_partition 0 (by norm_num)

/-- C4: the normalization scan takes min and max over the finite entries
only (non-finite entries are skipped; the functional embedding cannot
mutate its input): with no finite entry the sentinels `(+Infinity,
-Infinity)` survive, and with finite entries `q :: t` the result is the
finite minimum and maximum, the maximum widened to `min + 1` whenever it
equals the minimum — so the returned range never has zero width. -/
theorem calculateNormalization_finite_minmax (data : List JSVal) :
    (finiteVals data = [] →
      calculateNormalization data = (JSVal.inf, JSVal.neginf)) ∧
    (∀ q t, finiteVals data = q :: t →
      calculateNormalization data =
        (JSVal.num (t.foldl min q),
         JSVal.num (if t.foldl max q = t.foldl min q
            then t.foldl min q + 1 else t.foldl max q)) ∧
      t.foldl min q <
        (if t.foldl max q = t.foldl min q
          then t.foldl min q + 1 else t.foldl max q)) := by
  constructor
  · intro h
    unfold calculateNormalization
    rw [calcMinMax_eq data, h]
    rfl
  · intro q t h
    have h1 : calcMinMax data =
        (JSVal.num (t.foldl min q), JSVal.num (t.foldl max q)) := by
      rw [calcMinMax_eq data, h]
    unfold calculateNormalization
    rw [h1]
    by_cases he : t.foldl max q = t.foldl min q
    · have hsq : jsStrictEq (JSVal.num (t.foldl max q))
          (JSVal.num (t.foldl min q)) = true := by
        simp [jsStrictEq, he]
      rw [if_pos hsq, if_pos he]
      exact ⟨by simp [jsAdd], lt_add_one _⟩
    · have hsq : ¬jsStrictEq (JSVal.num (t.foldl max q))
          (JSVal.num (t.foldl min q)) = true := by
        simp [jsStrictEq, he]
      rw [if_neg hsq, if_neg he]
      refine ⟨rfl, ?_⟩
      exact lt_of_le_of_ne (le_trans (foldl_min_le q t) (le_foldl_max q t))
        (fun e => he e.symm)

/-- C4 (witness): the constant buffer `[5, NaN, 5]` yields the widened
range `(5, 6)`. -/
theorem calculateNormalization_finite_minmax_witness :
    calculateNormalization [JSVal.num 5, JSVal.nan, JSVal.num 5] =
      (JSVal.num 5, JSVal.num 6) := by
  have h := ((calculateNormalization_finite_minmax
    [JSVal.num 5, JSVal.nan, JSVal.num 5]).2 5 [5] rfl).1
  norm_num at h
  exact h

/-- C5: the percentile threshold first filters to the strictly-positive
finite values (zeros and non-finite values excluded), short-circuits to
`none` when none remain, and otherwise returns the element at index
`floor(p/100 * n)` clamped to `n - 1` of an ascending sort of the filtered
values. -/
theorem thresholdOf_characterization (diffs : List JSVal) (p : ℚ) :
    (∀ q : ℚ, q ∈ validDiffs diffs ↔ (JSVal.num q ∈ diffs ∧ 0 < q)) ∧
    (validDiffs diffs = [] → thresholdOf diffs p = none) ∧
    (validDiffs diffs ≠ [] →
      ∃ s : List ℚ, s.Perm (validDiffs diffs) ∧ s.Sorted (· ≤ ·) ∧
        thresholdOf diffs p =
          some (s.getD (min (Int.toNat ⌊p / 100 * (s.length : ℚ)⌋)
            (s.length - 1)) 0)) := by
  refine ⟨mem_validDiffs diffs, ?_, ?_⟩
  · intro h
    unfold thresholdOf
    rw [h]
    rfl
  · intro h
    refine ⟨sortAsc (validDiffs diffs), sortAsc_perm _, sortAsc_sorted _, ?_⟩
    have hlen : ¬(sortAsc (validDiffs diffs)).length = 0 := by
      rw [(sortAsc_perm (validDiffs diffs)).length_eq]
      exact fun h0 => h (List.length_eq_zero.mp h0)
    unfold thresholdOf thresholdIndex
    rw [if_neg hlen]

/-- C5 (witness): on `[2, 1, NaN, 0]` the zero and the `NaN` are filtered
out and the 50th percentile is taken from a sorted permutation of
`[2, 1]`. -/
theorem thresholdOf_characterization_witness :
    validDiffs [JSVal.num 2, JSVal.num 1, JSVal.nan, JSVal.num 0] ≠ [] ∧
    ∃ s : List ℚ,
      s.Perm (validDiffs [JSVal.num 2, JSVal.num 1, JSVal.nan, JSVal.num 0]) ∧
      s.Sorted (· ≤ ·) ∧
      thresholdOf [JSVal.num 2, JSVal.num 1, JSVal.nan, JSVal.num 0] 50 =
        some (s.getD (min (Int.toNat ⌊(50 : ℚ) / 100 * (s.length : ℚ)⌋)
          (s.length - 1)) 0) :=
  ⟨by decide, (thresholdOf_characterization
    [JSVal.num 2, JSVal.num 1, JSVal.nan, JSVal.num 0] 50).2.2 (by decide)⟩

/-- C6: for a fixed difference buffer with at least one strictly-positive
finite value, the percentile threshold is monotone in the percentile. -/
theorem threshold_percentile_monotone (diffs : List JSVal) (p1 p2 : ℚ)
    (h0 : 0 ≤ p1) (h12 : p1 < p2) (h100 : p2 ≤ 100)
    (hne : validDiffs diffs ≠ []) :
    ∃ t1 t2, thresholdOf diffs p1 = some t1 ∧
      thresholdOf diffs p2 = some t2 ∧ t1 ≤ t2 := by
  have hlenpos : 0 < (sortAsc (validDiffs diffs)).length := by
    rw [(sortAsc_perm (validDiffs diffs)).length_eq]
    exact List.length_pos.mpr hne
  have hth : ∀ p : ℚ, thresholdOf diffs p =
      some ((sortAsc (validDiffs diffs)).getD
        (thresholdIndex p (sortAsc (validDiffs diffs)).length) 0) := by
    intro p
    unfold thresholdOf
    rw [if_neg (by omega : ¬(sortAsc (validDiffs diffs)).length = 0)]
  have hidx : ∀ p : ℚ, thresholdIndex p (sortAsc (validDiffs diffs)).length <
      (sortAsc (validDiffs diffs)).length := by
    intro p
    unfold thresholdIndex
    omega
  have hmono : thresholdIndex p1 (sortAsc (validDiffs diffs)).length ≤
      thresholdIndex p2 (sortAsc (validDiffs diffs)).length := by
    unfold thresholdIndex
    have hq : p1 / 100 * ((sortAsc (validDiffs diffs)).length : ℚ) ≤
        p2 / 100 * ((sortAsc (validDiffs diffs)).length : ℚ) :=
      mul_le_mul_of_nonneg_right (by linarith) (Nat.cast_nonneg _)
    have ht := Int.toNat_le_toNat (Int.floor_le_floor hq)
    omega
  exact ⟨_, _, hth p1, hth p2,
    sorted_getD_mono (sortAsc_sorted _) hmono (hidx p2)⟩

/-- C6 (witness): on `[1, 2]`, the 0th-percentile threshold is at most the
100th-percentile threshold. -/
theorem threshold_percentile_monotone_witness :
    ∃ t1 t2, thresholdOf [JSVal.num 1, JSVal.num 2] 0 = some t1 ∧
      thresholdOf [JSVal.num 1, JSVal.num 2] 100 = some t2 ∧ t1 ≤ t2 :=
  threshold_percentile_monotone [JSVal.num 1, JSVal.num 2] 0 100
    (by norm_num) (by norm_num) (by norm_num) (by decide)

/-- C10: whenever a threshold is computed it is itself one of the
strictly-positive finite values occurring in the difference buffer, and
since classification is the inclusive `diffs[i]` finite and
`diffs[i] >= threshold`, at least one pixel is classified anomalous. -/
theorem threshold_always_highlights (diffs : List JSVal) (p : ℚ)
    (hne : validDiffs diffs ≠ []) :
    ∃ t, thresholdOf diffs p = some t ∧ JSVal.num t ∈ diffs ∧ 0 < t ∧
      ∃ i, i < diffs.length ∧ anomalousAt diffs t i = true := by
  have hlenpos : 0 < (sortAsc (validDiffs diffs)).length := by
    rw [(sortAsc_perm (validDiffs diffs)).length_eq]
    exact List.length_pos.mpr hne
  have hth : thresholdOf diffs p =
      some ((sortAsc (validDiffs diffs)).getD
        (thresholdIndex p (sortAsc (validDiffs diffs)).length) 0) := by
    unfold thresholdOf
    rw [if_neg (by omega : ¬(sortAsc (validDiffs diffs)).length = 0)]
  have hidx : thresholdIndex p (sortAsc (validDiffs diffs)).length <
      (sortAsc (validDiffs diffs)).length := by
    unfold thresholdIndex
    omega
  have htmem_s : (sortAsc (validDiffs diffs)).getD
      (thresholdIndex p (sortAsc (validDiffs diffs)).length) 0 ∈
      sortAsc (validDiffs diffs) := by
    rw [List.getD_eq_getElem _ _ hidx]
    exact List.getElem_mem _
  have htv := (sortAsc_perm (validDiffs diffs)).mem_iff.mp htmem_s
  obtain ⟨hin, hpos⟩ := (mem_validDiffs diffs _).mp htv
  obtain ⟨i, hi, hieq⟩ := List.mem_iff_getElem.mp hin
  refine ⟨_, hth, hin, hpos, i, hi, ?_⟩
  unfold anomalousAt
  rw [List.getD_eq_getElem _ _ hi, hieq]
  simp [JSVal.isFinite, jsGe]

/-- C10 (witness): on `[3]` the threshold is `3` and pixel 0 is
highlighted. -/
theorem threshold_always_highlights_witness :
    ∃ t, thresholdOf [JSVal.num 3] 95 = some t ∧
      JSVal.num t ∈ [JSVal.num 3] ∧ 0 < t ∧
      ∃ i, i < ([JSVal.num 3] : List JSVal).length ∧
        anomalousAt [JSVal.num 3] t i = true :=
  threshold_always_highlights [JSVal.num 3] 95 (by decide)

end Profilometry
